import Mathlib

/-!
Shallow embedding of Taggi.js (src/index.js): a client-side shortcode
parser/renderer with comment-anchored DOM injection.

Modelling conventions:
* JS strings are modelled as `String` or `List Char` (converted at the edges);
* the DOM subtree of an injection target is flattened to a list of child
  nodes, each either a comment node or an opaque HTML chunk (rendered
  fragments are assumed to parse to non-comment nodes);
* the JS regex engine behind a tag-supplied pattern is abstracted as a
  match-finding function `find text lastIndex`, mirroring the semantics of
  `RegExp.prototype.exec` with the `g` flag (first match starting at or after
  `lastIndex`); `lastIndex` bookkeeping is explicit, exactly as the engine
  updates it;
* the shortcode pattern `\[([^\s\]]+)\s+([^\]]+)\]` is a fixed literal in the
  source, so its matching (including the one relevant backtracking case on
  the whitespace group) is implemented directly as a character scanner;
* JS exceptions surface as the `jsError` outcome, a JS infinite loop as
  `diverge`.
-/

namespace Taggi

/-- ASCII part of the character class matched by the regex escape for
whitespace in JS; the model restricts text to this whitespace set. -/
def wsChar (c : Char) : Bool :=
  c == ' ' || c == '\t' || c == '\n' || c == '\r' ||
    c == Char.ofNat 11 || c == Char.ofNat 12

/-- Characters admissible in the name group of the shortcode pattern:
anything except whitespace and the closing bracket. -/
def nameChar (c : Char) : Bool := !wsChar c && c != ']'

/-- Characters admissible in the content group: anything except the closing
bracket. -/
def innerChar (c : Char) : Bool := c != ']'

/-- Stage three of a shortcode-pattern match attempt: after the opening
bracket, a nonempty name run and a nonempty whitespace run `sp` were read and
`r2` remains.  The content group takes the maximal nonempty run of
non-bracket characters, then a closing bracket is required.  When `r2` opens
directly with the closing bracket, the engine backtracks once on the greedy
whitespace group, handing its last character to the content group (content
admits whitespace, so this always succeeds when `sp` has at least two
characters). -/
def mmAfterWs (name sp r2 : List Char) :
    Option (List Char × List Char × List Char × List Char) :=
  if (r2.takeWhile innerChar).isEmpty then
    if 2 ≤ sp.length then
      match r2 with
      | ']' :: after => some (name, sp.dropLast, [sp.getLastD ' '], after)
      | _ => none
    else none
  else
    match r2.dropWhile innerChar with
    | ']' :: after => some (name, sp, r2.takeWhile innerChar, after)
    | _ => none

/-- Stage two: read the mandatory whitespace run after the name group. -/
def mmAfterName (name r1 : List Char) :
    Option (List Char × List Char × List Char × List Char) :=
  if (r1.takeWhile wsChar).isEmpty then none
  else mmAfterWs name (r1.takeWhile wsChar) (r1.dropWhile wsChar)

/-- Stage one: read the mandatory name run after the opening bracket. -/
def mmAfterBracket (rest : List Char) :
    Option (List Char × List Char × List Char × List Char) :=
  if (rest.takeWhile nameChar).isEmpty then none
  else mmAfterName (rest.takeWhile nameChar) (rest.dropWhile nameChar)

/-- One attempt of the shortcode regex at the current position.  On success
returns (name, whitespace-run, content, rest-after-match). -/
def matchMarkerAt : List Char → Option (List Char × List Char × List Char × List Char)
  | [] => none
  | c :: rest => if c = '[' then mmAfterBracket rest else none

theorem length_dropWhile_le (p : Char → Bool) (l : List Char) :
    (l.dropWhile p).length ≤ l.length := by
  induction l with
  | nil => simp [List.dropWhile]
  | cons c cs ih =>
    by_cases h : p c
    · simp only [List.dropWhile, h]
      exact Nat.le_succ_of_le ih
    · simp [List.dropWhile, h]

theorem mmAfterWs_length {name sp r2 n s i after : List Char}
    (h : mmAfterWs name sp r2 = some (n, s, i, after)) :
    after.length < r2.length := by
  unfold mmAfterWs at h
  split at h
  · split at h
    · split at h
      · rename_i after' hr2
        obtain ⟨rfl, rfl, rfl, rfl⟩ := by simpa using h
        simp [hr2]
      · exact absurd h (by simp)
    · exact absurd h (by simp)
  · split at h
    · rename_i after' hdw
      obtain ⟨rfl, rfl, rfl, rfl⟩ := by simpa using h
      have h2 := length_dropWhile_le innerChar r2
      rw [hdw] at h2
      simp only [List.length_cons] at h2
      omega
    · exact absurd h (by simp)

theorem mmAfterName_length {name r1 n s i after : List Char}
    (h : mmAfterName name r1 = some (n, s, i, after)) :
    after.length < r1.length := by
  unfold mmAfterName at h
  split at h
  · exact absurd h (by simp)
  · exact Nat.lt_of_lt_of_le (mmAfterWs_length h) (length_dropWhile_le _ _)

theorem mmAfterBracket_length {rest n s i after : List Char}
    (h : mmAfterBracket rest = some (n, s, i, after)) :
    after.length < rest.length := by
  unfold mmAfterBracket at h
  split at h
  · exact absurd h (by simp)
  · exact Nat.lt_of_lt_of_le (mmAfterName_length h) (length_dropWhile_le _ _)

/-- A successful match consumes at least one character. -/
theorem matchMarkerAt_length {l n sp i after : List Char}
    (h : matchMarkerAt l = some (n, sp, i, after)) : after.length < l.length := by
  match l with
  | [] => simp [matchMarkerAt] at h
  | c :: rest =>
    simp only [matchMarkerAt] at h
    split at h
    · have := mmAfterBracket_length h
      simp only [List.length_cons]
      omega
    · exact absurd h (by simp)

theorem mmAfterWs_reconstruct {name sp r2 n s i after : List Char}
    (h : mmAfterWs name sp r2 = some (n, s, i, after)) :
    n = name ∧ s ++ i ++ ']' :: after = sp ++ r2 := by
  unfold mmAfterWs at h
  split at h
  · rename_i htk
    split at h
    · rename_i hlen
      split at h
      · rename_i after' hr2
        obtain ⟨rfl, rfl, rfl, rfl⟩ := by simpa using h
        refine ⟨rfl, ?_⟩
        have hne : sp ≠ [] := by
          intro hcon
          rw [hcon] at hlen
          simp at hlen
        obtain ⟨ys, y, rfl⟩ : ∃ ys y, sp = ys ++ [y] := by
          rcases List.eq_nil_or_concat sp with h1 | h1
          · exact absurd h1 hne
          · obtain ⟨ys, y, h1⟩ := h1
            exact ⟨ys, y, by simpa [List.concat_eq_append] using h1⟩
        simp
      · exact absurd h (by simp)
    · exact absurd h (by simp)
  · rename_i htk
    split at h
    · rename_i after' hdw
      obtain ⟨rfl, rfl, rfl, rfl⟩ := by simpa using h
      refine ⟨rfl, ?_⟩
      conv_rhs => rw [← List.takeWhile_append_dropWhile (p := innerChar) (l := r2)]
      rw [hdw]
      simp
    · exact absurd h (by simp)

theorem mmAfterName_reconstruct {name r1 n s i after : List Char}
    (h : mmAfterName name r1 = some (n, s, i, after)) :
    n = name ∧ s ++ i ++ ']' :: after = r1 := by
  unfold mmAfterName at h
  split at h
  · exact absurd h (by simp)
  · obtain ⟨h1, h2⟩ := mmAfterWs_reconstruct h
    refine ⟨h1, ?_⟩
    rw [h2, List.takeWhile_append_dropWhile]

theorem mmAfterBracket_reconstruct {rest n s i after : List Char}
    (h : mmAfterBracket rest = some (n, s, i, after)) :
    n ++ s ++ i ++ ']' :: after = rest := by
  unfold mmAfterBracket at h
  split at h
  · exact absurd h (by simp)
  · obtain ⟨h1, h2⟩ := mmAfterName_reconstruct h
    subst h1
    conv_rhs => rw [← List.takeWhile_append_dropWhile (p := nameChar) (l := rest)]
    rw [← h2]
    simp

/-- A successful match consumed exactly the characters it reports: the input
is the reported full match followed by the reported rest. -/
theorem matchMarkerAt_reconstruct {l n sp i after : List Char}
    (h : matchMarkerAt l = some (n, sp, i, after)) :
    l = '[' :: (n ++ sp ++ i ++ ']' :: after) := by
  match l with
  | [] => simp [matchMarkerAt] at h
  | c :: rest =>
    simp only [matchMarkerAt] at h
    split at h
    · rename_i hc
      subst hc
      have h2 := mmAfterBracket_reconstruct h
      rw [← h2]
    · exact absurd h (by simp)

/-- Tokens of the decomposition the shortcode regex induces on a text: a
character outside every match, or one full marker match split into its name
group, the whitespace run, and its content group. -/
inductive Tok where
  | plain (c : Char)
  | marker (name sp inner : List Char)
deriving DecidableEq, Repr

/-- The exact source text of a token. -/
def tokText : Tok → List Char
  | .plain c => [c]
  | .marker n sp i => '[' :: (n ++ sp ++ i ++ [']'])

/-- Concatenation of the images of a list mapping, used to state the token
decomposition theorems. -/
def catMap {α β : Type} (f : α → List β) : List α → List β
  | [] => []
  | a :: l => f a ++ catMap f l

/-- Fuelled worker embedding the effectful global replace the source runs on
the fixed shortcode pattern: at each position, attempt a match; on a match
whose name group equals the processed tag, the callback renders the content
(pushing onto found) and substitutes the empty string (inject set) or the
rendered HTML (inject absent); any other match is put back verbatim.  The
fuel only drives structural recursion and never runs out when it starts at
the length of the text. -/
def scParseAux (tn : List Char) (render : List Char → List Char → String)
    (injectSet : Bool) : Nat → List Char → List Char × List String
  | _, [] => ([], [])
  | 0, c :: rest => (c :: rest, [])
  | fuel + 1, c :: rest =>
    match matchMarkerAt (c :: rest) with
    | some (n, sp, i, after) =>
      if n = tn then
        ((if injectSet then [] else (render i n).data) ++
            (scParseAux tn render injectSet fuel after).1,
          render i n :: (scParseAux tn render injectSet fuel after).2)
      else
        ('[' :: (n ++ sp ++ i ++ ']' :: (scParseAux tn render injectSet fuel after).1),
          (scParseAux tn render injectSet fuel after).2)
    | none =>
      (c :: (scParseAux tn render injectSet fuel rest).1,
        (scParseAux tn render injectSet fuel rest).2)

theorem scParseAux_congr (tn : List Char) (render : List Char → List Char → String)
    (injectSet : Bool) :
    ∀ f1 f2 l, l.length ≤ f1 → l.length ≤ f2 →
      scParseAux tn render injectSet f1 l = scParseAux tn render injectSet f2 l := by
  intro f1
  induction f1 with
  | zero =>
    intro f2 l h1 _
    have hl : l = [] := List.eq_nil_of_length_eq_zero (Nat.le_zero.mp h1)
    subst hl
    cases f2 <;> rfl
  | succ f1 ih =>
    intro f2 l h1 h2
    match l with
    | [] => cases f2 <;> rfl
    | c :: rest =>
      match f2 with
      | 0 => simp at h2
      | f2 + 1 =>
        simp only [scParseAux]
        rcases hm : matchMarkerAt (c :: rest) with _ | ⟨n, sp, i, after⟩
        · dsimp only
          simp only [List.length_cons] at h1 h2
          rw [ih f2 rest (by omega) (by omega)]
        · dsimp only
          have hlen := matchMarkerAt_length hm
          simp only [List.length_cons] at h1 h2 hlen
          rw [ih f2 after (by omega) (by omega)]

/-- The effectful global replace of the shortcode pattern over a text:
returns the rewritten content and the pushed found list, in match order. -/
def scParse (tn : List Char) (render : List Char → List Char → String)
    (injectSet : Bool) (l : List Char) : List Char × List String :=
  scParseAux tn render injectSet l.length l

theorem scParse_cons_some {c : Char} {rest n sp i after : List Char}
    (tn : List Char) (render : List Char → List Char → String) (injectSet : Bool)
    (hm : matchMarkerAt (c :: rest) = some (n, sp, i, after)) :
    scParse tn render injectSet (c :: rest) =
      if n = tn then
        ((if injectSet then [] else (render i n).data) ++
            (scParse tn render injectSet after).1,
          render i n :: (scParse tn render injectSet after).2)
      else
        ('[' :: (n ++ sp ++ i ++ ']' :: (scParse tn render injectSet after).1),
          (scParse tn render injectSet after).2) := by
  have hlen := matchMarkerAt_length hm
  simp only [List.length_cons] at hlen
  unfold scParse
  simp only [List.length_cons, scParseAux, hm]
  rw [scParseAux_congr tn render injectSet rest.length after.length after
    (by omega) (by omega)]

theorem scParse_cons_none {c : Char} {rest : List Char}
    (tn : List Char) (render : List Char → List Char → String) (injectSet : Bool)
    (hm : matchMarkerAt (c :: rest) = none) :
    scParse tn render injectSet (c :: rest) =
      (c :: (scParse tn render injectSet rest).1,
        (scParse tn render injectSet rest).2) := by
  unfold scParse
  simp only [List.length_cons, scParseAux, hm]

/-- Fuelled worker of the token decomposition: same scan as the replace, but
recording tokens instead of substituting. -/
def tokenizeAux : Nat → List Char → List Tok
  | _, [] => []
  | 0, _ :: _ => []
  | fuel + 1, c :: rest =>
    match matchMarkerAt (c :: rest) with
    | some (n, sp, i, after) => .marker n sp i :: tokenizeAux fuel after
    | none => .plain c :: tokenizeAux fuel rest

theorem tokenizeAux_congr :
    ∀ f1 f2 l, l.length ≤ f1 → l.length ≤ f2 → tokenizeAux f1 l = tokenizeAux f2 l := by
  intro f1
  induction f1 with
  | zero =>
    intro f2 l h1 _
    have hl : l = [] := List.eq_nil_of_length_eq_zero (Nat.le_zero.mp h1)
    subst hl
    cases f2 <;> rfl
  | succ f1 ih =>
    intro f2 l h1 h2
    match l with
    | [] => cases f2 <;> rfl
    | c :: rest =>
      match f2 with
      | 0 => simp at h2
      | f2 + 1 =>
        simp only [tokenizeAux]
        rcases hm : matchMarkerAt (c :: rest) with _ | ⟨n, sp, i, after⟩
        · dsimp only
          simp only [List.length_cons] at h1 h2
          rw [ih f2 rest (by omega) (by omega)]
        · dsimp only
          have hlen := matchMarkerAt_length hm
          simp only [List.length_cons] at h1 h2 hlen
          rw [ih f2 after (by omega) (by omega)]

/-- The token decomposition of a text under the shortcode pattern. -/
def tokenize (l : List Char) : List Tok := tokenizeAux l.length l

theorem tokenize_cons_some {c : Char} {rest n sp i after : List Char}
    (hm : matchMarkerAt (c :: rest) = some (n, sp, i, after)) :
    tokenize (c :: rest) = .marker n sp i :: tokenize after := by
  have hlen := matchMarkerAt_length hm
  simp only [List.length_cons] at hlen
  unfold tokenize
  simp only [List.length_cons, tokenizeAux, hm]
  rw [tokenizeAux_congr rest.length after.length after (by omega) (by omega)]

theorem tokenize_cons_none {c : Char} {rest : List Char}
    (hm : matchMarkerAt (c :: rest) = none) :
    tokenize (c :: rest) = .plain c :: tokenize rest := by
  unfold tokenize
  simp only [List.length_cons, tokenizeAux, hm]

/-- Replacement a token contributes to the rewritten content, per the
replacement policy of the source: markers of the processed tag are deleted
(inject set) or replaced by their rendered HTML (inject absent); everything
else is kept verbatim. -/
def tokContent (tn : List Char) (render : List Char → List Char → String)
    (injectSet : Bool) : Tok → List Char
  | .plain c => [c]
  | .marker n sp i =>
    if n = tn then (if injectSet then [] else (render i n).data)
    else tokText (.marker n sp i)

/-- Contribution of a token to the found list: only markers of the processed
tag render. -/
def tokFound (tn : List Char) (render : List Char → List Char → String) :
    Tok → Option String
  | .plain _ => none
  | .marker n _ i => if n = tn then some (render i n) else none

/-- The effectful replace equals the declarative per-token description. -/
theorem scParse_spec (tn : List Char) (render : List Char → List Char → String)
    (injectSet : Bool) (l : List Char) :
    scParse tn render injectSet l =
      (catMap (tokContent tn render injectSet) (tokenize l),
        (tokenize l).filterMap (tokFound tn render)) := by
  suffices h : ∀ N l2, List.length l2 ≤ N → scParse tn render injectSet l2 =
      (catMap (tokContent tn render injectSet) (tokenize l2),
        (tokenize l2).filterMap (tokFound tn render)) from h l.length l le_rfl
  intro N
  induction N with
  | zero =>
    intro l2 h1
    have hl : l2 = [] := List.eq_nil_of_length_eq_zero (Nat.le_zero.mp h1)
    subst hl
    rfl
  | succ N ih =>
    intro l2 h1
    match l2 with
    | [] => rfl
    | c :: rest =>
      rcases hm : matchMarkerAt (c :: rest) with _ | ⟨n, sp, i, after⟩
      · rw [scParse_cons_none tn render injectSet hm, tokenize_cons_none hm]
        simp only [List.length_cons] at h1
        rw [ih rest (by omega)]
        simp [catMap, tokContent, tokFound, List.filterMap_cons]
      · have hlen := matchMarkerAt_length hm
        simp only [List.length_cons] at h1 hlen
        rw [scParse_cons_some tn render injectSet hm, tokenize_cons_some hm,
          ih after (by omega)]
        by_cases hn : n = tn
        · simp [hn, catMap, tokContent, tokFound, List.filterMap_cons]
        · simp [hn, catMap, tokContent, tokFound, tokText, List.filterMap_cons]

/-- Variadic JS render function: the positional string arguments (with
undefined modelled as none) to an HTML string. -/
def OutFn : Type := List (Option String) → String

/-- Reading a positional argument inside a JS function body: a missing or
undefined argument interpolates into a template string as that literal
text. -/
def jsArg (args : List (Option String)) (k : Nat) : String :=
  (args.getD k none).getD "undefined"

/-- Library options: the fallback selector and the fallback renderer. -/
structure Options where
  defaultSelector : String
  fallbackOutput : OutFn

/-- The option defaults installed by the constructor. -/
def defaultOptions : Options where
  defaultSelector := ".taggit"
  fallbackOutput := fun args =>
    "<span class=\"taggit\" data-tag=\"" ++ jsArg args 1 ++ "\">" ++
      jsArg args 0 ++ "</span>"

/-- An element for the purposes of ancestor search: its inclusive ancestor
chain, self first, each node a target id paired with the selectors that
node matches. -/
abbrev Chain : Type := List (Nat × List String)

/-- The value of a tag's inject setting, a tagged variant of the runtime
type dispatch in the source: a callback, a selector string, or any other
value (which resolves to null). -/
inductive InjectSpec where
  | fn (f : Chain → Option Nat)
  | str (s : String)
  | other

/-- JS String.prototype.trim on the modelled whitespace set. -/
def jsTrim (l : List Char) : List Char :=
  ((l.dropWhile wsChar).reverse.dropWhile wsChar).reverse

/-- DOM Element.closest: the nearest inclusive ancestor matching the
selector, walking the chain self first. -/
def closest (el : Chain) (sel : String) : Option Nat :=
  match el with
  | [] => none
  | (i, sels) :: up => if sel ∈ sels then some i else closest up sel

/-- The ambient global document's querySelector, modelled as an association
from selector strings to the id of the first document-wide match. -/
def docLookup (dq : List (String × Nat)) (sel : String) : Option Nat :=
  match dq with
  | [] => none
  | (s, i) :: rest => if s = sel then some i else docLookup rest sel

/-- Source resolveInjectTarget: a function is invoked with the element; a
string is trimmed, and when it opens with the forcing marker the rest is
trimmed again and only closest is consulted; otherwise closest first, then
the ambient document; anything else resolves to null. -/
def resolveInjectTarget (inject : InjectSpec) (el : Chain)
    (dq : List (String × Nat)) : Option Nat :=
  match inject with
  | .fn f => f el
  | .str s =>
    if (jsTrim s.data).isEmpty then none
    else if (jsTrim s.data).headD ' ' = '!' then
      if (jsTrim (jsTrim s.data).tail).isEmpty then none
      else closest el (String.mk (jsTrim (jsTrim s.data).tail))
    else
      match closest el (String.mk (jsTrim s.data)) with
      | some t => some t
      | none => docLookup dq (String.mk (jsTrim s.data))
  | .other => none

/-- One match as RegExp.prototype.exec reports it: start index, end index,
and the captured groups (slice(1) of the JS match object, with undefined
groups as none). -/
structure JsMatch where
  start : Nat
  stop : Nat
  groups : List (Option String)
deriving DecidableEq, Repr

/-- A tag's regex setting: its flags plus the abstracted engine.  The find
function models exec of the compiled global regex: the first match starting
at or after the given index.  It is stateless; the per-instance lastIndex
state is threaded explicitly by the loops below. -/
structure RegexSpec where
  flags : String
  find : List Char → Nat → Option JsMatch

/-- The source forces the global flag onto the caller-supplied flags before
compiling both regex instances (which is why exec consults lastIndex at
all). -/
def ensureGlobal (flags : String) : String :=
  if 'g' ∈ flags.data then flags else flags ++ "g"

theorem ensureGlobal_global (flags : String) : 'g' ∈ (ensureGlobal flags).data := by
  unfold ensureGlobal
  split
  · assumption
  · simp

/-- Outcome of running a piece of JS: an infinite loop, a thrown exception,
or a value. -/
inductive Outcome (α : Type) where
  | diverge
  | jsError
  | ok (a : α)
deriving DecidableEq, Repr

/-- A tag configuration.  The JS object carries one output function used
variadically by both extraction modes. -/
structure Tag where
  selector : Option (List String) := none
  output : Option OutFn := none
  inject : Option InjectSpec := none
  position : Option String := none
  regex : Option RegexSpec := none

/-- The renderer parseShortcodeForTag uses: the tag's output function when
it is one, else the library fallback, invoked with (content, name). -/
def shortRender (opts : Options) (tag : Tag) : List Char → List Char → String :=
  fun inner name => (tag.output.getD opts.fallbackOutput)
    [some (String.mk inner), some (String.mk name)]

/-- Source parseShortcodeForTag: run the replace with the per-tag
callback. -/
def parseShortcodeForTag (opts : Options) (text : String) (tagName : String)
    (tag : Tag) : String × List String :=
  (String.mk (scParse tagName.data (shortRender opts tag) tag.inject.isSome text.data).1,
    (scParse tagName.data (shortRender opts tag) tag.inject.isSome text.data).2)

/-- The exec loop of parseRegex: repeated exec with explicit lastIndex.  The
engine sets lastIndex to the match end, so a zero-length match leaves it
unchanged and the loop re-reads the same match forever.  Reading the absent
output function as a callee throws a TypeError at the first match. -/
def execLoop (find : List Char → Nat → Option JsMatch) (output : Option OutFn)
    (text : List Char) : Nat → Nat → List String → Outcome (List String)
  | 0, _, _ => .diverge
  | fuel + 1, li, acc =>
    match find text li with
    | none => .ok acc.reverse
    | some m =>
      match output with
      | none => .jsError
      | some f => execLoop find output text fuel m.stop (f m.groups :: acc)

/-- String.prototype.replace with an empty replacement under a global regex,
per the spec of the replace algorithm: collect matches while advancing the
search index one past a zero-width match, and excise every matched span.
The next-source-position and the search index are threaded explicitly; the
fuel (text length plus slack at the call site) is a structural-recursion
device that a well-formed find function never exhausts. -/
def regexRemove (find : List Char → Nat → Option JsMatch) (text : List Char) :
    Nat → Nat → Nat → List Char
  | 0, _, nsp => text.drop nsp
  | fuel + 1, li, nsp =>
    match find text li with
    | none => text.drop nsp
    | some m =>
      ((text.take m.start).drop nsp) ++
        regexRemove find text fuel
          (if m.stop ≤ m.start then m.start + 1 else m.stop)
          (max m.start m.stop)

/-- Source parseRegex: collect each match's rendering through the exec loop,
then remove all matched spans from the text with an independently
constructed instance of the same pattern. -/
def parseRegex (fuel : Nat) (text : List Char) (tag : Tag) :
    Outcome (List Char × List String) :=
  match tag.regex with
  | none => .jsError
  | some rx =>
    match execLoop rx.find tag.output text fuel 0 [] with
    | .diverge => .diverge
    | .jsError => .jsError
    | .ok found => .ok (regexRemove rx.find text (text.length + 2) 0 0, found)

/-- A node in the flattened child list of an injection target: a comment
node or an opaque non-comment chunk. -/
inductive DNode where
  | comment (s : String)
  | chunk (s : String)
deriving DecidableEq, Repr

def isCommentSig (sig : String) : DNode → Bool
  | .comment s => s = sig
  | .chunk _ => false

def startSig (tagName : String) : String := "taggi:start:" ++ tagName

def endSig (tagName : String) : String := "taggi:end:" ++ tagName

/-- Source findComment: the TreeWalker scan for the first comment node with
the given text, here over the flattened child list; returns its index. -/
def findComment (cs : List DNode) (sig : String) : Option Nat :=
  match cs with
  | [] => none
  | d :: rest => if isCommentSig sig d then some 0 else (findComment rest sig).map (· + 1)

/-- The two insertion positions after normalisation. -/
inductive Pos where
  | afterbegin
  | beforeend
deriving DecidableEq, Repr

/-- Source normalizeInside with its legacy aliases; anything else defaults
to append inside. -/
def normalizeInside : Option String → Pos
  | some "afterbegin" => .afterbegin
  | some "beforeend" => .beforeend
  | some "after" => .afterbegin
  | some "before" => .beforeend
  | _ => .beforeend

/-- Array.from(new Set(l)): deduplicate keeping first occurrences in
order. -/
def jsSetDedupAux {α : Type} [DecidableEq α] (seen : List α) : List α → List α
  | [] => []
  | x :: xs => if x ∈ seen then jsSetDedupAux seen xs else x :: jsSetDedupAux (x :: seen) xs

def jsSetDedup {α : Type} [DecidableEq α] (l : List α) : List α := jsSetDedupAux [] l

/-- Template parsing of fragment strings: each nonempty fragment parses to
one opaque chunk node (fragments are assumed well-formed, self-contained
and comment-free; the empty string parses to no nodes). -/
def parseHTMLFrags (l : List String) : List DNode :=
  (l.filter (fun s => decide (s ≠ ""))).map DNode.chunk

/-- insertAdjacentHTML of the fresh anchor pair at the normalised
position. -/
def insertAdjacentPair (cs : List DNode) (tagName : String) (pos : Pos) : List DNode :=
  match pos with
  | .afterbegin => DNode.comment (startSig tagName) :: DNode.comment (endSig tagName) :: cs
  | .beforeend => cs ++ [DNode.comment (startSig tagName), DNode.comment (endSig tagName)]

/-- Source ensureCommentBlock: reuse both anchors when present, otherwise
insert one fresh adjacent pair at the requested position (the source then
re-finds both; the re-find happens in setCommentBlock below). -/
def ensureCommentBlock (cs : List DNode) (tagName : String) (pos : Pos) : List DNode :=
  if (findComment cs (startSig tagName)).isSome && (findComment cs (endSig tagName)).isSome
    then cs
  else insertAdjacentPair cs tagName pos

/-- The removal and insertion phases of setCommentBlock, given the located
indices of the first start anchor and the first end anchor.  The sibling
walk from start removes everything up to end when end follows start, and
every following sibling when the first end-signature comment precedes the
first start-signature comment (the walk then hits the end of the child
list); the parsed deduplicated fragments are inserted before end unless the
deduplicated list is empty. -/
def setCommentBlockCore (cs2 : List DNode) (si ei : Nat) (htmlList : List String) :
    List DNode :=
  if si < ei then
    if (jsSetDedup htmlList).isEmpty then cs2.take (si + 1) ++ cs2.drop ei
    else cs2.take (si + 1) ++ parseHTMLFrags (jsSetDedup htmlList) ++ cs2.drop ei
  else
    if (jsSetDedup htmlList).isEmpty then cs2.take (si + 1)
    else ((cs2.take (si + 1)).take ei) ++ parseHTMLFrags (jsSetDedup htmlList) ++
      ((cs2.take (si + 1)).drop ei)

/-- Source setCommentBlock: ensure anchors, then clear and refill the
region. -/
def setCommentBlock (cs : List DNode) (tagName : String) (htmlList : List String)
    (pos : Pos) : List DNode :=
  match findComment (ensureCommentBlock cs tagName pos) (startSig tagName) with
  | none => ensureCommentBlock cs tagName pos
  | some si =>
    match findComment (ensureCommentBlock cs tagName pos) (endSig tagName) with
    | none => ensureCommentBlock cs tagName pos
    | some ei => setCommentBlockCore (ensureCommentBlock cs tagName pos) si ei htmlList

/-- A source element of the scope: identity, the selectors it matches, its
inclusive ancestor chain, and its inner HTML. -/
structure SrcElem where
  sid : Nat
  sels : List String
  chain : Chain
  html : String
deriving DecidableEq, Repr

/-- An injection target: identity and its flattened child list. -/
structure TgtElem where
  tid : Nat
  children : List DNode
deriving DecidableEq, Repr

/-- The DOM state a run touches: the scope's source elements in document
order, the injection targets, and the ambient global document's selector
table (which exists independently of the scope). -/
structure DomState where
  sources : List SrcElem
  targets : List TgtElem
  docQuery : List (String × Nat)
deriving DecidableEq, Repr

/-- Extraction dispatch of the orchestrator: regex mode when the tag has a
pattern, shortcode mode otherwise. -/
def tagParse (fuel : Nat) (opts : Options) (tagName : String) (tag : Tag)
    (html : String) : Outcome (String × List String) :=
  match tag.regex with
  | some _ =>
    match parseRegex fuel html.data tag with
    | .diverge => .diverge
    | .jsError => .jsError
    | .ok p => .ok (String.mk p.1, p.2)
  | none => .ok (parseShortcodeForTag opts html tagName tag)

/-- Writing an element's innerHTML. -/
def setHtml (st : DomState) (sid : Nat) (content : String) : DomState :=
  { st with sources := st.sources.map fun e =>
      if e.sid = sid then { e with html := content } else e }

/-- Appending found fragments to the bucket of a target, creating the bucket
on first use (JS Map insertion order). -/
def bucketPush : List (Nat × List String) → Nat → List String → List (Nat × List String)
  | [], t, f => [(t, f)]
  | (t2, l) :: rest, t, f =>
    if t2 = t then (t2, l ++ f) :: rest else (t2, l) :: bucketPush rest t f

/-- The per-element body of the orchestrator loop: parse the element's inner
HTML, write it back only when changed, and when the tag injects and found is
nonempty resolve the target and push into its bucket — skipping silently
when resolution returns null. -/
def elemStep (fuel : Nat) (opts : Options) (tagName : String) (tag : Tag)
    (acc : DomState × List (Nat × List String)) (sid : Nat) :
    Outcome (DomState × List (Nat × List String)) :=
  match acc.1.sources.find? (fun e => e.sid == sid) with
  | none => .ok acc
  | some el =>
    match tagParse fuel opts tagName tag el.html with
    | .diverge => .diverge
    | .jsError => .jsError
    | .ok (content, found) =>
      let st2 := if content ≠ el.html then setHtml acc.1 sid content else acc.1
      match tag.inject with
      | none => .ok (st2, acc.2)
      | some inj =>
        if found.isEmpty then .ok (st2, acc.2)
        else
          match resolveInjectTarget inj el.chain acc.1.docQuery with
          | none => .ok (st2, acc.2)
          | some t => .ok (st2, bucketPush acc.2 t found)

/-- The forEach over the collected elements. -/
def foldElems (fuel : Nat) (opts : Options) (tagName : String) (tag : Tag) :
    List Nat → DomState × List (Nat × List String) →
      Outcome (DomState × List (Nat × List String))
  | [], acc => .ok acc
  | sid :: rest, acc =>
    match elemStep fuel opts tagName tag acc sid with
    | .diverge => .diverge
    | .jsError => .jsError
    | .ok acc2 => foldElems fuel opts tagName tag rest acc2

/-- Scope query: all scope elements matching the selector, in document
order. -/
def querySelectorAll (st : DomState) (sel : String) : List Nat :=
  (st.sources.filter (fun e => decide (sel ∈ e.sels))).map (fun e => e.sid)

/-- Rewriting one target's comment block with its bucket. -/
def applyBucket (tagName : String) (pos : Pos) (st : DomState)
    (b : Nat × List String) : DomState :=
  { st with targets := st.targets.map fun tg =>
      if tg.tid = b.1 then
        { tg with children := setCommentBlock tg.children tagName b.2 pos }
      else tg }

/-- Rewriting every bucketed target, in bucket insertion order. -/
def applyBuckets (tagName : String) (pos : Pos) (st : DomState) :
    List (Nat × List String) → DomState
  | [] => st
  | b :: rest => applyBuckets tagName pos (applyBucket tagName pos st b) rest

/-- The per-tag body of init: collect the deduplicated union of the
selector matches, skip the tag when empty, run the element loop, then — when
the tag injects and buckets exist — rewrite every bucketed target's
block. -/
def tagStep (fuel : Nat) (opts : Options) (st : DomState) (entry : String × Tag) :
    Outcome DomState :=
  if (jsSetDedup (catMap (querySelectorAll st)
      (entry.2.selector.getD [opts.defaultSelector]))).isEmpty then .ok st
  else
    match foldElems fuel opts entry.1 entry.2
        (jsSetDedup (catMap (querySelectorAll st)
          (entry.2.selector.getD [opts.defaultSelector]))) (st, []) with
    | .diverge => .diverge
    | .jsError => .jsError
    | .ok (st2, buckets) =>
      match entry.2.inject with
      | none => .ok st2
      | some _ =>
        if buckets.isEmpty then .ok st2
        else .ok (applyBuckets entry.1 (normalizeInside entry.2.position) st2 buckets)

/-- The fold of init over Object.entries of the configuration, in insertion
order. -/
def initTags (fuel : Nat) (opts : Options) : List (String × Tag) → DomState →
    Outcome DomState
  | [], st => .ok st
  | entry :: rest, st =>
    match tagStep fuel opts st entry with
    | .diverge => .diverge
    | .jsError => .jsError
    | .ok st2 => initTags fuel opts rest st2

/-- Source init: walk the configuration and apply parsing and injections to
the scope. -/
def init (fuel : Nat) (opts : Options) (cfg : List (String × Tag)) (st : DomState) :
    Outcome DomState := initTags fuel opts cfg st

/-- Modelled regex engine for a pattern that can match the empty string (the
JS literal a-star, compiled with the forced global flag): at any index not
past the end of the text the first match is the maximal run of the letter a
starting there, which is empty whenever that position does not hold the
letter. -/
def findStar : List Char → Nat → Option JsMatch := fun text li =>
  if li ≤ text.length then
    some ⟨li, li + ((text.drop li).takeWhile (fun c => c == 'a')).length, []⟩
  else none

/-- A constant renderer. -/
def constX : OutFn := fun _ => "X"

/-- A regex-mode tag whose pattern can match the empty string. -/
def tagStar : Tag := { output := some constX, regex := some ⟨"", findStar⟩ }

theorem execLoop_findStar_b : ∀ fuel acc,
    execLoop findStar (some constX) ['b'] fuel 0 acc = .diverge := by
  intro fuel
  induction fuel with
  | zero => intro acc; rfl
  | succ fuel ih =>
    intro acc
    have hfind : findStar ['b'] 0 = some ⟨0, 0, []⟩ := by decide
    simp only [execLoop, hfind]
    exact ih _

/-- Modelled regex engine for the single-letter pattern a: the first
occurrence of the letter at or after the index. -/
def findA : List Char → Nat → Option JsMatch := fun text li =>
  match (text.drop li).findIdx? (fun c => c == 'a') with
  | some k => some ⟨li + k, li + k + 1, []⟩
  | none => none

def rxA : RegexSpec := ⟨"", findA⟩

/-- A regex-mode tag lacking a render function. -/
def tagNoOutput : Tag := { regex := some rxA }

/-- Claim C1 (code bug).  The spec requires extraction over any text to
terminate for a zero-width capable pattern, the global-mode iteration
always advancing past a zero-length match.  The exec loop of parseRegex
sets lastIndex only to the match end, so a zero-length match at the current
index is re-read forever: on the pattern a-star and the one-character text
b, extraction diverges for every fuel bound, refuting termination in any
time bound — in particular one proportional to the text length. -/
theorem claim_C1_zero_width_diverges (fuel : Nat) :
    parseRegex fuel ['b'] tagStar = .diverge := by
  unfold parseRegex tagStar
  simp only
  rw [execLoop_findStar_b fuel []]

/-- Claim C3 (corrected).  With no render function, regex extraction throws
the configuration error precisely when the pattern matches the text at
least once; the error is raised at the first match, not on invocation. -/
theorem claim_C3_output_error_iff_match (fuel : Nat) (rx : RegexSpec) (tag : Tag)
    (text : List Char) (hout : tag.output = none) (hrx : tag.regex = some rx)
    (hfuel : 1 ≤ fuel) :
    (parseRegex fuel text tag = .jsError ↔ (rx.find text 0).isSome) := by
  unfold parseRegex
  rw [hrx]
  obtain ⟨fuel, rfl⟩ : ∃ f, fuel = f + 1 := ⟨fuel - 1, by omega⟩
  cases hf : rx.find text 0 with
  | none =>
    simp only [execLoop, hf, hout]
    simp
  | some m =>
    simp only [execLoop, hf, hout]
    simp

/-- Counterexample to claim C3 as stated: a regex-mode tag lacking a render
function, invoked on a text its pattern does not match, signals no error at
all — extraction returns the text unchanged with an empty found list. -/
theorem claim_C3_counterexample :
    tagNoOutput.output = none ∧
    parseRegex 5 ['b'] tagNoOutput = .ok (['b'], []) ∧
    parseRegex 5 ['b'] tagNoOutput ≠ .jsError :=
  ⟨rfl, by decide, by decide⟩

/-- Witness for the amended claim C3 at a concrete input: on a matching
text the missing render function is reported as an error. -/
theorem claim_C3_witness :
    tagNoOutput.output = none ∧ tagNoOutput.regex = some rxA ∧ (1 : Nat) ≤ 5 ∧
      (parseRegex 5 ['a'] tagNoOutput = .jsError ↔ (rxA.find ['a'] 0).isSome) :=
  ⟨rfl, rfl, by omega, claim_C3_output_error_iff_match 5 rxA tagNoOutput ['a'] rfl rfl (by omega)⟩

/-- Claim C4 (confirmed).  For an inject string opening (after trimming)
with the forcing marker, resolution strips the marker and trims the
remainder; an empty remainder resolves to null, otherwise only the nearest
inclusive ancestor search decides — the ambient document table is never
consulted, the result being identical for every such table. -/
theorem claim_C4_forced_ancestor (s : String) (el : Chain) (dq : List (String × Nat))
    (hne : ¬(jsTrim s.data).isEmpty) (hmark : (jsTrim s.data).headD ' ' = '!') :
    ((jsTrim (jsTrim s.data).tail).isEmpty →
      resolveInjectTarget (.str s) el dq = none) ∧
    (¬(jsTrim (jsTrim s.data).tail).isEmpty →
      resolveInjectTarget (.str s) el dq =
        closest el (String.mk (jsTrim (jsTrim s.data).tail))) ∧
    (∀ dq2, resolveInjectTarget (.str s) el dq = resolveInjectTarget (.str s) el dq2) := by
  unfold resolveInjectTarget
  dsimp only
  refine ⟨?_, ?_, ?_⟩
  · intro h
    rw [if_neg hne, if_pos hmark, if_pos h]
  · intro h
    rw [if_neg hne, if_pos hmark, if_neg h]
  · intro dq2
    rw [if_neg hne, if_pos hmark, if_neg hne, if_pos hmark]

/-- Witness for claim C4 at a concrete input: the document table maps the
selector to another node, yet the forced mode returns the ancestor. -/
theorem claim_C4_witness :
    ¬(jsTrim " !.card ".data).isEmpty ∧
      (jsTrim " !.card ".data).headD ' ' = '!' ∧
      resolveInjectTarget (.str " !.card ") [(0, [".x"]), (5, [".card"])]
        [(".card", 99)] = some 5 := by
  refine ⟨by decide, by decide, ?_⟩
  have h := (claim_C4_forced_ancestor " !.card " [(0, [".x"]), (5, [".card"])]
    [(".card", 99)] (by decide) (by decide)).2.1 (by decide)
  rw [h]
  decide

/-- Claim C10 (confirmed).  For a plain selector (no forcing marker) with no
matching inclusive ancestor, resolution falls back to the ambient global
document table — state that exists independently of the run scope — so the
resolved target can lie outside the scope the run operates on. -/
theorem claim_C10_document_fallback (s : String) (el : Chain)
    (dq : List (String × Nat)) (hne : ¬(jsTrim s.data).isEmpty)
    (hmark : (jsTrim s.data).headD ' ' ≠ '!')
    (hcl : closest el (String.mk (jsTrim s.data)) = none) :
    resolveInjectTarget (.str s) el dq = docLookup dq (String.mk (jsTrim s.data)) := by
  unfold resolveInjectTarget
  dsimp only
  rw [if_neg hne, if_neg hmark, hcl]

/-- Witness for claim C10 at a concrete input: no ancestor matches, and the
resolved target is a node of the ambient document outside the chain. -/
theorem claim_C10_witness :
    closest [(0, [".x"])] ".sidebar" = none ∧
      resolveInjectTarget (.str ".sidebar") [(0, [".x"])] [(".sidebar", 42)] = some 42 := by
  refine ⟨by decide, ?_⟩
  have h := claim_C10_document_fallback ".sidebar" [(0, [".x"])] [(".sidebar", 42)]
    (by decide) (by decide) (by decide)
  rw [h]
  decide

theorem catMap_append {α β : Type} (f : α → List β) (l1 l2 : List α) :
    catMap f (l1 ++ l2) = catMap f l1 ++ catMap f l2 := by
  induction l1 with
  | nil => rfl
  | cons a l ih => simp [catMap, ih]

theorem infix_catMap {α β : Type} (f : α → List β) {a : α} {l : List α} (h : a ∈ l) :
    f a <:+: catMap f l := by
  obtain ⟨s, t, rfl⟩ := List.append_of_mem h
  exact ⟨catMap f s, catMap f t, by simp [catMap_append, catMap]⟩

/-- The shortcode extraction in terms of the token decomposition. -/
theorem parseShortcodeForTag_spec (opts : Options) (tagName : String) (tag : Tag)
    (text : String) :
    parseShortcodeForTag opts text tagName tag =
      (String.mk (catMap (tokContent tagName.data (shortRender opts tag)
          tag.inject.isSome) (tokenize text.data)),
        (tokenize text.data).filterMap (tokFound tagName.data (shortRender opts tag))) := by
  unfold parseShortcodeForTag
  rw [scParse_spec]

/-- The inline renderer of the worked example: a hash followed by the
content. -/
def hashRender : OutFn := fun args => "#" ++ jsArg args 0

/-- The worked example's tag: inline mode (no inject), custom renderer. -/
def exInlineTag : Tag := { output := some hashRender }

/-- Claim C5 (confirmed).  Shortcode extraction follows the replacement
policy token by token: with inject set every matching marker contributes
nothing to the content (its rendering goes only to found), without inject
it is replaced in place by its rendering — both captured by tokContent —
and found collects exactly the renderings of the matching markers in
order; on the worked example this yields the rewritten heading and one
rendered fragment. -/
theorem claim_C5_replacement_policy :
    (∀ (opts : Options) (tagName : String) (tag : Tag) (text : String),
      parseShortcodeForTag opts text tagName tag =
        (String.mk (catMap (tokContent tagName.data (shortRender opts tag)
            tag.inject.isSome) (tokenize text.data)),
          (tokenize text.data).filterMap (tokFound tagName.data (shortRender opts tag)))) ∧
    parseShortcodeForTag defaultOptions "<h2>Sujet [hashtag urgent]</h2>" "hashtag"
        exInlineTag =
      ("<h2>Sujet #urgent</h2>", ["#urgent"]) := by
  refine ⟨?_, ?_⟩
  · intro opts tagName tag text
    exact parseShortcodeForTag_spec opts tagName tag text
  · decide

/-- Claim C6 (confirmed).  Extraction for one tag leaves every marker of a
different name character-for-character in the returned content (its full
source text is an infix of the content), and the found list collects only
the processed tag's markers. -/
theorem claim_C6_tag_isolation :
    (∀ (opts : Options) (tagName : String) (tag : Tag) (text : String)
        (n sp i : List Char), Tok.marker n sp i ∈ tokenize text.data →
        n ≠ tagName.data →
        tokText (Tok.marker n sp i) <:+:
          (parseShortcodeForTag opts text tagName tag).1.data) ∧
    (∀ (opts : Options) (tagName : String) (tag : Tag) (text : String),
      (parseShortcodeForTag opts text tagName tag).2 =
        (tokenize text.data).filterMap (tokFound tagName.data (shortRender opts tag))) := by
  constructor
  · intro opts tagName tag text n sp i hmem hne
    rw [parseShortcodeForTag_spec]
    have h2 : tokContent tagName.data (shortRender opts tag) tag.inject.isSome
        (Tok.marker n sp i) = tokText (Tok.marker n sp i) := by
      simp [tokContent, hne]
    have h3 := infix_catMap
      (tokContent tagName.data (shortRender opts tag) tag.inject.isSome) hmem
    rw [h2] at h3
    exact h3
  · intro opts tagName tag text
    rw [parseShortcodeForTag_spec]

/-- Witness for claim C6 at a concrete input: a marker of another tag
survives verbatim in the rewritten content. -/
theorem claim_C6_witness :
    (Tok.marker "b".data " ".data "x".data ∈ tokenize "<p>[b x][hashtag y]</p>".data) ∧
    "b".data ≠ "hashtag".data ∧
    tokText (Tok.marker "b".data " ".data "x".data) <:+:
      (parseShortcodeForTag defaultOptions "<p>[b x][hashtag y]</p>" "hashtag"
        exInlineTag).1.data :=
  ⟨by decide, by decide,
    claim_C6_tag_isolation.1 defaultOptions "hashtag" exInlineTag
      "<p>[b x][hashtag y]</p>" "b".data " ".data "x".data (by decide) (by decide)⟩

theorem startSig_ne_endSig (t : String) : startSig t ≠ endSig t := by
  intro h
  have h2 := congrArg (fun s => s.data.length) h
  simp only [startSig, endSig, String.data_append, List.length_append] at h2
  have ha : ("taggi:start:" : String).data.length = 12 := by decide
  have hb : ("taggi:end:" : String).data.length = 10 := by decide
  rw [ha, hb] at h2
  omega

theorem findComment_append_none {A l : List DNode} {sig : String}
    (hA : ∀ x ∈ A, isCommentSig sig x = false) :
    findComment (A ++ l) sig = (findComment l sig).map (· + A.length) := by
  induction A with
  | nil =>
    simp only [List.nil_append, List.length_nil]
    cases findComment l sig <;> simp
  | cons d A ih =>
    have hd := hA d (by simp)
    have hA2 : ∀ x ∈ A, isCommentSig sig x = false := fun x hx => hA x (by simp [hx])
    rw [List.cons_append]
    rw [show findComment (d :: (A ++ l)) sig =
      if isCommentSig sig d then some 0
      else (findComment (A ++ l) sig).map (· + 1) from rfl]
    rw [hd]
    simp only [Bool.false_eq_true, if_false]
    rw [ih hA2]
    cases findComment l sig
    · simp
    · simp
      omega

theorem findComment_cons_comment_ne {s sig : String} (h : s ≠ sig) (rest : List DNode) :
    findComment (DNode.comment s :: rest) sig = (findComment rest sig).map (· + 1) := by
  simp [findComment, isCommentSig, h]

theorem findComment_cons_self (sig : String) (rest : List DNode) :
    findComment (DNode.comment sig :: rest) sig = some 0 := by
  simp [findComment, isCommentSig]

theorem take_append_cons {α : Type} (A : List α) (x : α) (l : List α) :
    (A ++ x :: l).take (A.length + 1) = A ++ [x] := by
  induction A with
  | nil => simp
  | cons a A ih =>
    simp only [List.cons_append, List.length_cons]
    rw [List.take_succ_cons, ih]

theorem drop_mid {α : Type} (A : List α) (x : α) (B : List α) (y : α) (C : List α) :
    (A ++ x :: (B ++ y :: C)).drop (A.length + 1 + B.length) = y :: C := by
  induction A with
  | nil =>
    simp only [List.nil_append, List.length_nil]
    rw [show 0 + 1 + B.length = B.length + 1 from by omega]
    rw [List.drop_succ_cons]
    exact List.drop_left B (y :: C)
  | cons a A ih =>
    simp only [List.cons_append, List.length_cons]
    rw [show A.length + 1 + 1 + B.length = (A.length + 1 + B.length) + 1 from by omega]
    rw [List.drop_succ_cons]
    exact ih

theorem jsSetDedupAux_mem {α : Type} [DecidableEq α] (seen l : List α) (x : α) :
    x ∈ jsSetDedupAux seen l ↔ x ∈ l ∧ x ∉ seen := by
  induction l generalizing seen with
  | nil => simp [jsSetDedupAux]
  | cons a l ih =>
    by_cases ha : a ∈ seen
    · rw [jsSetDedupAux, if_pos ha, ih seen]
      constructor
      · rintro ⟨h1, h2⟩
        exact ⟨List.mem_cons_of_mem a h1, h2⟩
      · rintro ⟨h1, h2⟩
        rcases List.mem_cons.mp h1 with rfl | h1
        · exact absurd ha h2
        · exact ⟨h1, h2⟩
    · rw [jsSetDedupAux, if_neg ha, List.mem_cons, ih (a :: seen)]
      constructor
      · rintro (rfl | ⟨h1, h2⟩)
        · exact ⟨List.mem_cons_self x l, ha⟩
        · exact ⟨List.mem_cons_of_mem a h1,
            fun hc => h2 (List.mem_cons_of_mem a hc)⟩
      · rintro ⟨h1, h2⟩
        rcases List.mem_cons.mp h1 with rfl | h1
        · exact Or.inl rfl
        · by_cases hxa : x = a
          · exact Or.inl hxa
          · right
            refine ⟨h1, fun hc => ?_⟩
            rcases List.mem_cons.mp hc with h4 | h4
            · exact hxa h4
            · exact h2 h4

theorem jsSetDedupAux_nodup {α : Type} [DecidableEq α] (seen l : List α) :
    (jsSetDedupAux seen l).Nodup := by
  induction l generalizing seen with
  | nil => simp [jsSetDedupAux]
  | cons a l ih =>
    by_cases ha : a ∈ seen
    · rw [jsSetDedupAux, if_pos ha]
      exact ih seen
    · rw [jsSetDedupAux, if_neg ha]
      refine List.nodup_cons.mpr ⟨?_, ih (a :: seen)⟩
      intro hc
      have h2 := (jsSetDedupAux_mem (a :: seen) l a).mp hc
      exact h2.2 (List.mem_cons_self a seen)

theorem jsSetDedupAux_sublist {α : Type} [DecidableEq α] (seen l : List α) :
    List.Sublist (jsSetDedupAux seen l) l := by
  induction l generalizing seen with
  | nil => simp [jsSetDedupAux]
  | cons a l ih =>
    by_cases ha : a ∈ seen
    · rw [jsSetDedupAux, if_pos ha]
      exact (ih seen).trans (List.sublist_cons_self a l)
    · rw [jsSetDedupAux, if_neg ha]
      exact List.Sublist.cons₂ a (ih (a :: seen))

/-- Claim C7 (confirmed).  With the anchor pair present (first start before
first end, no earlier stray signatures), region replacement deletes every
node strictly between the anchors and refills the region with the parsed
deduplicated fragments — nothing when the deduplicated list is empty —
leaving the anchors and the surroundings in place; deduplication keeps the
first occurrence of each fragment string in array order (a sublist without
duplicates holding exactly the fragments of the input). -/
theorem claim_C7_region_replacement (tagName : String) (htmlList : List String)
    (pos : Pos) (A B C : List DNode)
    (hA : ∀ x ∈ A, isCommentSig (startSig tagName) x = false ∧
      isCommentSig (endSig tagName) x = false)
    (hB : ∀ x ∈ B, isCommentSig (endSig tagName) x = false) :
    setCommentBlock
        (A ++ DNode.comment (startSig tagName) ::
          (B ++ DNode.comment (endSig tagName) :: C)) tagName htmlList pos =
      A ++ DNode.comment (startSig tagName) ::
        (parseHTMLFrags (jsSetDedup htmlList) ++ DNode.comment (endSig tagName) :: C) ∧
    List.Sublist (jsSetDedup htmlList) htmlList ∧
    (jsSetDedup htmlList).Nodup ∧
    (∀ x, x ∈ jsSetDedup htmlList ↔ x ∈ htmlList) := by
  refine ⟨?_, jsSetDedupAux_sublist [] htmlList, jsSetDedupAux_nodup [] htmlList,
    fun x => by rw [jsSetDedup, jsSetDedupAux_mem]; simp⟩
  have hsi : findComment
      (A ++ DNode.comment (startSig tagName) ::
        (B ++ DNode.comment (endSig tagName) :: C)) (startSig tagName) =
      some A.length := by
    rw [findComment_append_none (fun x hx => (hA x hx).1), findComment_cons_self]
    simp
  have hei : findComment
      (A ++ DNode.comment (startSig tagName) ::
        (B ++ DNode.comment (endSig tagName) :: C)) (endSig tagName) =
      some (A.length + 1 + B.length) := by
    rw [findComment_append_none (fun x hx => (hA x hx).2),
      findComment_cons_comment_ne (startSig_ne_endSig tagName),
      findComment_append_none hB, findComment_cons_self]
    simp
    omega
  have hens : ensureCommentBlock
      (A ++ DNode.comment (startSig tagName) ::
        (B ++ DNode.comment (endSig tagName) :: C)) tagName pos =
      A ++ DNode.comment (startSig tagName) ::
        (B ++ DNode.comment (endSig tagName) :: C) := by
    unfold ensureCommentBlock
    rw [hsi, hei]
    simp
  unfold setCommentBlock
  rw [hens, hsi]
  dsimp only
  rw [hei]
  dsimp only
  unfold setCommentBlockCore
  rw [if_pos (by omega : A.length < A.length + 1 + B.length)]
  by_cases hde : (jsSetDedup htmlList).isEmpty
  · rw [if_pos hde, take_append_cons, drop_mid]
    have h0 : jsSetDedup htmlList = [] := List.isEmpty_iff.mp hde
    rw [h0]
    simp [parseHTMLFrags]
  · rw [if_neg hde, take_append_cons, drop_mid]
    simp [List.append_assoc]

/-- Witness for claim C7 at a concrete input: two identical fragments yield
a single copy between the anchors, the previous region content is gone. -/
theorem claim_C7_witness :
    setCommentBlock
        ([DNode.chunk "q"] ++ DNode.comment (startSig "x") ::
          ([DNode.chunk "old"] ++ DNode.comment (endSig "x") :: [])) "x"
        ["<b>u</b>", "<b>u</b>"] .beforeend =
      [DNode.chunk "q", DNode.comment (startSig "x"), DNode.chunk "<b>u</b>",
        DNode.comment (endSig "x")] ∧
    jsSetDedup ["<b>u</b>", "<b>u</b>"] = ["<b>u</b>"] := by
  have h := (claim_C7_region_replacement "x" ["<b>u</b>", "<b>u</b>"] .beforeend
    [DNode.chunk "q"] [DNode.chunk "old"] [] (by decide) (by decide)).1
  refine ⟨?_, by decide⟩
  rw [h]
  decide

theorem findComment_append_isSome (l1 l2 : List DNode) (sig : String) :
    (findComment (l1 ++ l2) sig).isSome =
      ((findComment l1 sig).isSome || (findComment l2 sig).isSome) := by
  induction l1 with
  | nil => simp [findComment]
  | cons d l ih =>
    by_cases hd : isCommentSig sig d
    · simp [findComment, hd]
    · simp [findComment, hd, ih]

theorem insertAdjacentPair_has_anchors (cs : List DNode) (tagName : String) (pos : Pos) :
    (findComment (insertAdjacentPair cs tagName pos) (startSig tagName)).isSome ∧
    (findComment (insertAdjacentPair cs tagName pos) (endSig tagName)).isSome := by
  cases pos
  · constructor
    · rw [insertAdjacentPair, findComment_cons_self]
      rfl
    · rw [insertAdjacentPair,
        findComment_cons_comment_ne (startSig_ne_endSig tagName),
        findComment_cons_self]
      rfl
  · constructor
    · rw [insertAdjacentPair, findComment_append_isSome, findComment_cons_self]
      simp
    · rw [insertAdjacentPair, findComment_append_isSome,
        findComment_cons_comment_ne (startSig_ne_endSig tagName),
        findComment_cons_self]
      simp

/-- Claim C8 (confirmed).  Ensuring anchors reuses an existing pair when
both signatures are found in the target (no mutation); when the pair is
absent it inserts exactly one fresh adjacent start-end pair at the
requested position; after the call both anchors exist, and re-running the
call never creates a duplicate pair — it is idempotent. -/
theorem claim_C8_anchor_pair (cs : List DNode) (tagName : String) (pos : Pos) :
    ((findComment cs (startSig tagName)).isSome ∧
        (findComment cs (endSig tagName)).isSome →
      ensureCommentBlock cs tagName pos = cs) ∧
    (¬((findComment cs (startSig tagName)).isSome ∧
        (findComment cs (endSig tagName)).isSome) →
      ensureCommentBlock cs tagName pos = insertAdjacentPair cs tagName pos) ∧
    (findComment (ensureCommentBlock cs tagName pos) (startSig tagName)).isSome ∧
    (findComment (ensureCommentBlock cs tagName pos) (endSig tagName)).isSome ∧
    ensureCommentBlock (ensureCommentBlock cs tagName pos) tagName pos =
      ensureCommentBlock cs tagName pos := by
  by_cases hc : (findComment cs (startSig tagName)).isSome ∧
      (findComment cs (endSig tagName)).isSome
  · have he : ensureCommentBlock cs tagName pos = cs := by
      unfold ensureCommentBlock
      rw [if_pos (by simp only [Bool.and_eq_true]; exact hc)]
    refine ⟨fun _ => he, fun hn => absurd hc hn, ?_, ?_, ?_⟩
    · rw [he]; exact hc.1
    · rw [he]; exact hc.2
    · rw [he, he]
  · have he : ensureCommentBlock cs tagName pos = insertAdjacentPair cs tagName pos := by
      unfold ensureCommentBlock
      rw [if_neg (by simp only [Bool.and_eq_true]; exact hc)]
    obtain ⟨h1, h2⟩ := insertAdjacentPair_has_anchors cs tagName pos
    refine ⟨fun hcc => absurd hcc hc, fun _ => he, ?_, ?_, ?_⟩
    · rw [he]; exact h1
    · rw [he]; exact h2
    · rw [he]
      unfold ensureCommentBlock
      rw [if_pos (by simp only [Bool.and_eq_true]; exact ⟨h1, h2⟩)]

/-- Witness for claim C8 at concrete inputs: reuse of an existing pair,
insertion of one fresh pair when absent, and idempotence of the call. -/
theorem claim_C8_witness :
    ensureCommentBlock [DNode.comment (startSig "x"), DNode.comment (endSig "x")]
        "x" .beforeend =
      [DNode.comment (startSig "x"), DNode.comment (endSig "x")] ∧
    ensureCommentBlock [DNode.chunk "q"] "x" .beforeend =
      insertAdjacentPair [DNode.chunk "q"] "x" .beforeend ∧
    ensureCommentBlock (ensureCommentBlock [DNode.chunk "q"] "x" .beforeend)
        "x" .beforeend =
      ensureCommentBlock [DNode.chunk "q"] "x" .beforeend :=
  ⟨(claim_C8_anchor_pair [DNode.comment (startSig "x"), DNode.comment (endSig "x")]
      "x" .beforeend).1 (by decide),
    (claim_C8_anchor_pair [DNode.chunk "q"] "x" .beforeend).2.1 (by decide),
    (claim_C8_anchor_pair [DNode.chunk "q"] "x" .beforeend).2.2.2.2⟩

/-- Claim C9 (confirmed).  When the tag injects, found is nonempty and the
target resolves to null, the element step only writes back the rewritten
content: no error, no bucket entry, and the loop over the remaining
elements proceeds from that state unchanged. -/
theorem claim_C9_null_target_skipped (fuel : Nat) (opts : Options) (tagName : String)
    (tag : Tag) (st : DomState) (b : List (Nat × List String)) (sid : Nat)
    (el : SrcElem) (inj : InjectSpec) (content : String) (found : List String)
    (rest : List Nat)
    (hel : st.sources.find? (fun e => e.sid == sid) = some el)
    (hparse : tagParse fuel opts tagName tag el.html = .ok (content, found))
    (hinj : tag.inject = some inj)
    (hfound : found ≠ [])
    (hres : resolveInjectTarget inj el.chain st.docQuery = none) :
    elemStep fuel opts tagName tag (st, b) sid =
      .ok ((if content ≠ el.html then setHtml st sid content else st), b) ∧
    foldElems fuel opts tagName tag (sid :: rest) (st, b) =
      foldElems fuel opts tagName tag rest
        ((if content ≠ el.html then setHtml st sid content else st), b) := by
  have hfe : found.isEmpty = false := by
    cases found with
    | nil => exact absurd rfl hfound
    | cons f fs => rfl
  have h1 : elemStep fuel opts tagName tag (st, b) sid =
      .ok ((if content ≠ el.html then setHtml st sid content else st), b) := by
    unfold elemStep
    dsimp only
    rw [hel]
    dsimp only
    rw [hparse]
    dsimp only
    rw [hinj]
    dsimp only
    rw [hfe]
    simp only [Bool.false_eq_true, if_false]
    rw [hres]
  refine ⟨h1, ?_⟩
  simp only [foldElems]
  rw [h1]

/-- The C9 witness instance: a tag injecting towards a selector that
resolves nowhere. -/
def c9Tag : Tag :=
  { selector := some [".t"], output := some hashRender, inject := some (.str ".none") }

def c9El : SrcElem := ⟨0, [".t"], [(0, [".t"])], "[hashtag y]"⟩

def c9St : DomState := { sources := [c9El], targets := [], docQuery := [] }

/-- Witness for claim C9 at a concrete input. -/
theorem claim_C9_witness :
    elemStep 5 defaultOptions "hashtag" c9Tag (c9St, []) 0 =
      .ok ((if ("" : String) ≠ c9El.html then setHtml c9St 0 "" else c9St), []) :=
  (claim_C9_null_target_skipped 5 defaultOptions "hashtag" c9Tag c9St [] 0 c9El
    (.str ".none") "" ["#y"] [] (by decide) (by decide) rfl (by decide) (by decide)).1

/-- The C2 counterexample instance: an inline renderer that reintroduces a
marker of its own tag. -/
def badRender : OutFn := fun args => jsArg args 0 ++ "[hashtag " ++ jsArg args 0 ++ "]"

def cexTag : Tag := { output := some badRender }

def cexCfg : List (String × Tag) := [("hashtag", cexTag)]

def cexSt0 : DomState :=
  { sources := [⟨0, [".taggit"], [], "[hashtag a]"⟩], targets := [], docQuery := [] }

def cexSt1 : DomState :=
  { sources := [⟨0, [".taggit"], [], "a[hashtag a]"⟩], targets := [], docQuery := [] }

def cexSt2 : DomState :=
  { sources := [⟨0, [".taggit"], [], "aa[hashtag a]"⟩], targets := [], docQuery := [] }

/-- Dropping every comment node from the targets: DOM state up to
anchor-pair presence is compared through this projection. -/
def stripComments (ts : List TgtElem) : List TgtElem :=
  ts.map fun tg =>
    { tg with children := tg.children.filter (fun d => match d with
        | .comment _ => false
        | .chunk _ => true) }

/-- DOM states identical modulo anchor-pair presence: sources and the
ambient document agree, targets agree after erasing comments. -/
def eqModAnchors (st st2 : DomState) : Prop :=
  st.sources = st2.sources ∧ stripComments st.targets = stripComments st2.targets ∧
    st.docQuery = st2.docQuery

/-- Counterexample to claim C2 as stated: with a renderer that reintroduces
its own marker, the second run rewrites the source element again, so the
two-run state differs from the one-run state even modulo anchors. -/
theorem claim_C2_counterexample :
    init 5 defaultOptions cexCfg cexSt0 = .ok cexSt1 ∧
    init 5 defaultOptions cexCfg cexSt1 = .ok cexSt2 ∧
    ¬eqModAnchors cexSt1 cexSt2 :=
  ⟨by decide, by decide, fun h => absurd h.1 (by decide)⟩

theorem elemStep_noop (fuel : Nat) (opts : Options) (tagName : String) (tag : Tag)
    (st : DomState) (b : List (Nat × List String)) (sid : Nat)
    (hH : ∀ e ∈ st.sources, tagParse fuel opts tagName tag e.html = .ok (e.html, [])) :
    elemStep fuel opts tagName tag (st, b) sid = .ok (st, b) := by
  unfold elemStep
  dsimp only
  cases hel : st.sources.find? (fun e => e.sid == sid) with
  | none => rfl
  | some el =>
    have hmem : el ∈ st.sources := List.mem_of_find?_eq_some hel
    dsimp only
    rw [hH el hmem]
    dsimp only
    rw [if_neg (by simp)]
    cases htag : tag.inject with
    | none => rfl
    | some inj => rfl

theorem foldElems_noop (fuel : Nat) (opts : Options) (tagName : String) (tag : Tag)
    (st : DomState)
    (hH : ∀ e ∈ st.sources, tagParse fuel opts tagName tag e.html = .ok (e.html, [])) :
    ∀ (sids : List Nat) (b : List (Nat × List String)),
      foldElems fuel opts tagName tag sids (st, b) = .ok (st, b) := by
  intro sids
  induction sids with
  | nil => intro b; rfl
  | cons sid rest ih =>
    intro b
    simp only [foldElems]
    rw [elemStep_noop fuel opts tagName tag st b sid hH]
    exact ih b

theorem tagStep_noop (fuel : Nat) (opts : Options) (st : DomState)
    (entry : String × Tag)
    (hH : ∀ e ∈ st.sources, tagParse fuel opts entry.1 entry.2 e.html = .ok (e.html, [])) :
    tagStep fuel opts st entry = .ok st := by
  unfold tagStep
  split
  · rfl
  · rw [foldElems_noop fuel opts entry.1 entry.2 st hH]
    dsimp only
    cases htag : entry.2.inject with
    | none => rfl
    | some inj => rfl

theorem initTags_noop (fuel : Nat) (opts : Options) :
    ∀ (cfg : List (String × Tag)) (st1 : DomState),
      (∀ p ∈ cfg, ∀ e ∈ st1.sources,
        tagParse fuel opts p.1 p.2 e.html = .ok (e.html, [])) →
      initTags fuel opts cfg st1 = .ok st1 := by
  intro cfg
  induction cfg with
  | nil => intro st1 _; rfl
  | cons p rest ih =>
    intro st1 hH
    simp only [initTags]
    rw [tagStep_noop fuel opts st1 p (hH p (List.mem_cons_self p rest))]
    exact ih st1 (fun q hq => hH q (List.mem_cons_of_mem p hq))

/-- Claim C2 amended (corrected).  Running the pipeline twice equals running
it once provided the first run leaves no further matches for any configured
tag: when every tag's extraction is a no-op (unchanged content, empty
found) on every source element of the once-run state, the second run
returns that state unchanged — exact equality, hence in particular equality
modulo anchor pairs.  The counterexample shows the unrestricted claim
fails when a renderer reintroduces markers of its own tag. -/
theorem claim_C2_idempotent_amended (fuel : Nat) (opts : Options)
    (cfg : List (String × Tag)) (st0 st1 : DomState)
    (h0 : init fuel opts cfg st0 = .ok st1)
    (hH : ∀ p ∈ cfg, ∀ e ∈ st1.sources,
      tagParse fuel opts p.1 p.2 e.html = .ok (e.html, [])) :
    init fuel opts cfg st1 = .ok st1 := by
  have _h0 := h0
  exact initTags_noop fuel opts cfg st1 hH

/-- The C2 witness instance: an ordinary inline renderer. -/
def okTag : Tag := { output := some hashRender }

def okCfg : List (String × Tag) := [("hashtag", okTag)]

def okSt0 : DomState :=
  { sources := [⟨0, [".taggit"], [], "[hashtag a]"⟩], targets := [], docQuery := [] }

def okSt1 : DomState :=
  { sources := [⟨0, [".taggit"], [], "#a"⟩], targets := [], docQuery := [] }

/-- Witness for the amended claim C2 at a concrete input: the second run
reproduces the once-run state exactly. -/
theorem claim_C2_witness :
    init 5 defaultOptions okCfg okSt0 = .ok okSt1 ∧
    init 5 defaultOptions okCfg okSt1 = .ok okSt1 :=
  ⟨by decide,
    claim_C2_idempotent_amended 5 defaultOptions okCfg okSt0 okSt1 (by decide) (by decide)⟩

end Taggi
